import Mathlib

/-!
Verification of the chessnote PGN parsing core: a shallow embedding of the
character classifiers (internal/util), the tokenizer (internal/scanner), the
recursive-descent parser and the SAN move decomposer, translated from the Go
source.  Input streams are modelled as `List Char`; the Go `bufio` reader's
`ReadRune`/`UnreadRune` pair is modelled by `read` below, with `unread`
rendered by keeping the pre-read list.  Loops whose Go form is unbounded
iteration over the stream are given an explicit fuel parameter so that every
definition is structurally recursive (hence executable by kernel reduction);
fuel-adequacy theorems show the chosen fuel bounds always suffice, which is
the formal content of the parser-termination property.
-/

namespace Chessnote

/-! ## Character classifiers (internal/util/util.go) -/

/-- Go: `func IsFile(r rune) bool { return r >= 'a' && r <= 'h' }` -/
def IsFile (r : Char) : Bool := 'a' ≤ r && r ≤ 'h'

/-- Go: `func IsRank(r rune) bool { return r >= '1' && r <= '8' }` -/
def IsRank (r : Char) : Bool := '1' ≤ r && r ≤ '8'

/-- Go: `IsWhitespace`: space, tab or newline. -/
def IsWhitespace (r : Char) : Bool := r == ' ' || r == '\t' || r == '\n'

/-- Go: `IsLetter`: ASCII letters. -/
def IsLetter (r : Char) : Bool := ('a' ≤ r && r ≤ 'z') || ('A' ≤ r && r ≤ 'Z')

/-- Go: `IsDigit`: ASCII digits. -/
def IsDigit (r : Char) : Bool := '0' ≤ r && r ≤ '9'

/-! ## Tokens (internal/scanner/token.go) -/

inductive TokenType where
  | ILLEGAL | EOF | IDENT | NUMBER | STRING
  | LBRACKET | RBRACKET | LPAREN | RPAREN | DOT | ASTERISK
  | COMMENT | NAG
  deriving DecidableEq, Repr

structure Token where
  type : TokenType
  literal : List Char
  deriving DecidableEq, Repr

/-! ## The scanner (internal/scanner/scanner.go)

Go's `read` returns `eof = rune(0)` when the underlying reader is exhausted
(or errors); a NUL character present in the stream is likewise returned as
`rune(0)`, indistinguishable from end of input.  `unread` restores the state
before the last successful read; after a failed read it is a no-op, which the
translation renders by reusing the pre-read list. -/

def eofChar : Char := Char.ofNat 0

/-- Go: `func (s *Scanner) read() rune`: next rune, or `eof` when exhausted. -/
def read : List Char → Char × List Char
  | [] => (eofChar, [])
  | c :: cs => (c, cs)

/-- The consuming loop of Go `scanWhitespace`: eat whitespace; stop consuming
at `eof` (a NUL char is consumed, true end of input leaves nothing), and
unread the first non-whitespace character. -/
def wsLoop : List Char → List Char
  | [] => []
  | c :: cs =>
    if c == eofChar then cs
    else if !IsWhitespace c then c :: cs
    else wsLoop cs

/-- The literal-accumulating loop of Go `scanIdent`: runs of
letters/digits/`_`/`+`/`#`/`x`/`=`/`-`; stops consuming at `eof` (NUL
consumed) and unreads any other character. Returns (literal, rest). -/
def identLoop : List Char → List Char × List Char
  | [] => ([], [])
  | c :: cs =>
    if c == eofChar then ([], cs)
    else if !(IsLetter c || IsDigit c || c == '_' || c == '+' || c == '#' ||
              c == 'x' || c == '=' || c == '-') then ([], c :: cs)
    else
      let (l, r) := identLoop cs
      (c :: l, r)

/-- The loop of Go `scanString`: content up to the closing `"` or `eof`
(the terminator is consumed in both cases). -/
def stringLoop : List Char → List Char × List Char
  | [] => ([], [])
  | c :: cs =>
    if c == '"' || c == eofChar then ([], cs)
    else
      let (l, r) := stringLoop cs
      (c :: l, r)

/-- The loop of Go `scanCommentBlock`: content up to `}` or `eof`. -/
def commentBlockLoop : List Char → List Char × List Char
  | [] => ([], [])
  | c :: cs =>
    if c == '}' || c == eofChar then ([], cs)
    else
      let (l, r) := commentBlockLoop cs
      (c :: l, r)

/-- The loop of Go `scanCommentLine`: content up to newline or `eof`. -/
def commentLineLoop : List Char → List Char × List Char
  | [] => ([], [])
  | c :: cs =>
    if c == '\n' || c == eofChar then ([], cs)
    else
      let (l, r) := commentLineLoop cs
      (c :: l, r)

/-- The loop of Go `scanNAG`: a run of digits; the first non-digit
(including a NUL) is unread. -/
def nagLoop : List Char → List Char × List Char
  | [] => ([], [])
  | c :: cs =>
    if IsDigit c then
      let (l, r) := nagLoop cs
      (c :: l, r)
    else ([], c :: cs)

/-- Numeric value of a digit run, as Go's `strconv.Atoi` computes it. -/
def digitsVal (l : List Char) : Nat :=
  l.foldl (fun a c => a * 10 + (c.toNat - 48)) 0

/-- Whether Go's `strconv.Atoi` succeeds on this literal.  Scanner literals
fed to it always start with a letter or digit, so the sign cases of `Atoi`
are unreachable; `Atoi` fails on empty input, on any non-digit character,
and (with `ErrRange`) on values exceeding the 64-bit `int` range. -/
def atoiOk (l : List Char) : Bool :=
  !l.isEmpty && l.all IsDigit && digitsVal l ≤ 9223372036854775807

/-- Go `scanIdent`: collect an identifier run, then reclassify a literal
accepted by `strconv.Atoi` as a NUMBER token. -/
def scanIdent (cs : List Char) : Token × List Char :=
  let (lit, rest) := identLoop cs
  if atoiOk lit then (⟨.NUMBER, lit⟩, rest) else (⟨.IDENT, lit⟩, rest)

/-- Go `scanString` (called after the opening quote was consumed). -/
def scanString (cs : List Char) : Token × List Char :=
  let (lit, rest) := stringLoop cs
  (⟨.STRING, lit⟩, rest)

/-- Go `scanCommentBlock` (called after the opening brace was consumed). -/
def scanCommentBlock (cs : List Char) : Token × List Char :=
  let (lit, rest) := commentBlockLoop cs
  (⟨.COMMENT, lit⟩, rest)

/-- Go `scanCommentLine` (called after the semicolon was consumed). -/
def scanCommentLine (cs : List Char) : Token × List Char :=
  let (lit, rest) := commentLineLoop cs
  (⟨.COMMENT, lit⟩, rest)

/-- Go `scanNAG` (called after the dollar sign was consumed). -/
def scanNAG (cs : List Char) : Token × List Char :=
  let (lit, rest) := nagLoop cs
  (⟨.NAG, lit⟩, rest)

/-- The non-recursive part of Go `Scan`: the identifier guard and the rune
switch, for a first rune `r` that is not whitespace.  `cs1` is the stream
after reading `r`, `orig` the stream before (to which the identifier branch
unreads). -/
def scanSwitch (r : Char) (cs1 orig : List Char) : Token × List Char :=
  if IsLetter r || IsDigit r then scanIdent orig
  else if r == eofChar then (⟨.EOF, []⟩, cs1)
  else if r == '[' then (⟨.LBRACKET, [r]⟩, cs1)
  else if r == ']' then (⟨.RBRACKET, [r]⟩, cs1)
  else if r == '(' then (⟨.LPAREN, [r]⟩, cs1)
  else if r == ')' then (⟨.RPAREN, [r]⟩, cs1)
  else if r == '"' then scanString cs1
  else if r == '.' then (⟨.DOT, [r]⟩, cs1)
  else if r == '*' then (⟨.ASTERISK, [r]⟩, cs1)
  else if r == '{' then scanCommentBlock cs1
  else if r == ';' then scanCommentLine cs1
  else if r == '$' then scanNAG cs1
  else (⟨.ILLEGAL, [r]⟩, cs1)

/-- Go `Scan`, with fuel bounding the number of whitespace-skip rounds
(`scanWhitespace` recursively re-enters `Scan` after consuming a whitespace
run).  `none` means the fuel ran out; `ScanF_isSome` shows `length + 1`
always suffices. -/
def ScanF : Nat → List Char → Option (Token × List Char)
  | 0, _ => none
  | fuel + 1, cs =>
    let (r, cs1) := read cs
    if IsWhitespace r then ScanF fuel (wsLoop cs)
    else some (scanSwitch r cs1 cs)

/-- Total `Scan`: the fuel bound `length + 1` is proven adequate below. -/
def Scan (cs : List Char) : Token × List Char :=
  (ScanF (cs.length + 1) cs).getD (⟨.EOF, []⟩, cs)

/-! ## The record model (chessnote.go / pgn.go)

`Move` carries `Variations : List (List Move)`, a nested recursive
occurrence, so it is declared as a single-constructor inductive with manual
projections mirroring the Go struct fields. -/

structure Square where
  File : Int
  Rank : Int
  deriving DecidableEq, Repr

inductive PieceType where
  | Pawn | Knight | Bishop | Rook | Queen | King
  deriving DecidableEq, Repr

/-- Go: `PieceSymbols` map from rune to `PieceType`. -/
def PieceSymbols (c : Char) : Option PieceType :=
  if c == 'N' then some .Knight
  else if c == 'B' then some .Bishop
  else if c == 'R' then some .Rook
  else if c == 'Q' then some .Queen
  else if c == 'K' then some .King
  else none

inductive Move where
  | mk (From To : Square) (Piece Promotion : PieceType)
       (IsCapture IsCheck IsMate IsKingsideCastle IsQueensideCastle : Bool)
       (Variations : List (List Move)) (NAGs : List Int)

def Move.From : Move → Square
  | .mk f _ _ _ _ _ _ _ _ _ _ => f

def Move.To : Move → Square
  | .mk _ t _ _ _ _ _ _ _ _ _ => t

def Move.Piece : Move → PieceType
  | .mk _ _ p _ _ _ _ _ _ _ _ => p

def Move.Promotion : Move → PieceType
  | .mk _ _ _ p _ _ _ _ _ _ _ => p

def Move.IsCapture : Move → Bool
  | .mk _ _ _ _ c _ _ _ _ _ _ => c

def Move.IsCheck : Move → Bool
  | .mk _ _ _ _ _ c _ _ _ _ _ => c

def Move.IsMate : Move → Bool
  | .mk _ _ _ _ _ _ m _ _ _ _ => m

def Move.IsKingsideCastle : Move → Bool
  | .mk _ _ _ _ _ _ _ k _ _ _ => k

def Move.IsQueensideCastle : Move → Bool
  | .mk _ _ _ _ _ _ _ _ q _ _ => q

def Move.Variations : Move → List (List Move)
  | .mk _ _ _ _ _ _ _ _ _ v _ => v

def Move.NAGs : Move → List Int
  | .mk _ _ _ _ _ _ _ _ _ _ n => n

/-- The Go zero value `Move{}`. -/
def emptyMove : Move := .mk ⟨0, 0⟩ ⟨0, 0⟩ .Pawn .Pawn false false false false false [] []

/-- Step 4 of `parseMoveFromRaw`: overwrite the check/mate flags and the
promotion piece of a decomposed core move with the values stripped in step 1
(`coreMove.IsCheck = finalMove.IsCheck` etc.). -/
def Move.withSuffix : Move → PieceType → Bool → Bool → Move
  | .mk f t p _ cap _ _ kc qc v n, promo, chk, mate =>
    .mk f t p promo cap chk mate kc qc v n

/-- `lastMove.NAGs = append(lastMove.NAGs, nag)`. -/
def Move.addNAG : Move → Int → Move
  | .mk f t p pr cap chk mt kc qc v n, g => .mk f t p pr cap chk mt kc qc v (n ++ [g])

/-- `parentMove.Variations = append(parentMove.Variations, variationMoves)`. -/
def Move.addVariation : Move → List Move → Move
  | .mk f t p pr cap chk mt kc qc v n, vm => .mk f t p pr cap chk mt kc qc (v ++ [vm]) n

/-- Replace the last element of a move list in place, as the Go code does
through the `&(*moves)[len(*moves)-1]` pointer. -/
def updateLast : List Move → (Move → Move) → List Move
  | [], _ => []
  | [m], f => [f m]
  | m :: ms, f => m :: updateLast ms f

structure Game where
  Tags : List (String × String)
  Moves : List Move
  Result : String

/-- Go map assignment `g.Tags[key] = value`: overwrite an existing binding
for the key, otherwise add a new one. -/
def mapInsert (m : List (String × String)) (k v : String) : List (String × String) :=
  if m.any (fun p => p.1 == k) then m.map (fun p => if p.1 == k then (k, v) else p)
  else m ++ [(k, v)]

/-- Go map lookup `g.Tags[key]`. -/
def tagsGet (m : List (String × String)) (k : String) : Option String :=
  (m.find? (fun p => p.1 == k)).map (fun p => p.2)

/-! ## The move decomposer (pgn.go: parseMoveFromRaw and helpers) -/

/-- Go: `newSquare(s string)`: exactly two characters, a file letter
followed by a rank digit; components are `int(s[0]-'a')` / `int(s[1]-'1')`. -/
def newSquare (s : List Char) : Option Square :=
  match s with
  | [a, b] =>
    if IsFile a && IsRank b then
      some ⟨(a.toNat : Int) - 97, (b.toNat : Int) - 49⟩
    else none
  | _ => none

/-- Go: `parsePiece`: an optional leading piece letter; absence means Pawn. -/
def parsePiece (movetext : List Char) : List Char × PieceType :=
  match movetext with
  | c :: rest =>
    match PieceSymbols c with
    | some piece => (rest, piece)
    | none => (movetext, .Pawn)
  | [] => (movetext, .Pawn)

/-- Go: `parseDisambiguation`: an optional single file or rank character;
a leading `x` is left for the capture step. -/
def parseDisambiguation (movetext : List Char) : List Char × Square :=
  match movetext with
  | [] => ([], ⟨0, 0⟩)
  | c :: rest =>
    if c == 'x' then (movetext, ⟨0, 0⟩)
    else if IsFile c then (rest, ⟨(c.toNat : Int) - 97, 0⟩)
    else if IsRank c then (rest, ⟨0, (c.toNat : Int) - 49⟩)
    else (movetext, ⟨0, 0⟩)

/-- The general path of Go `parseCoreMove` after its pawn-capture special
case: destination = last two characters, then piece letter, disambiguation,
capture marker; leftovers invalidate the move. -/
def parseCoreRest (raw : List Char) : Option Move :=
  if raw.length < 2 then none
  else
    match newSquare (raw.drop (raw.length - 2)) with
    | none => none
    | some dest =>
      let t0 := raw.take (raw.length - 2)
      let (t1, piece) := parsePiece t0
      let (t2, fromSq) := parseDisambiguation t1
      let (t3, isCap) :=
        match t2 with
        | c :: t => if c == 'x' then (t, true) else (t2, false)
        | [] => ([], false)
      if t3.isEmpty then
        some (.mk fromSq dest piece .Pawn isCap false false false false [] [])
      else none

/-- Go: `parseCoreMove`: the dedicated pawn-capture shape
(`len==4 && IsFile(raw[0]) && raw[1]=='x'`, e.g. `exd5`) first, then the
general decomposition. -/
def parseCoreMove (raw : List Char) : Option Move :=
  match raw with
  | [c0, c1, c2, c3] =>
    if IsFile c0 && c1 == 'x' then
      match newSquare [c2, c3] with
      | none => none
      | some dest =>
        some (.mk ⟨(c0.toNat : Int) - 97, 0⟩ dest .Pawn .Pawn true false false false false [] [])
    else parseCoreRest raw
  | _ => parseCoreRest raw

/-- Step 2/3 of `parseMoveFromRaw`: the castling special cases `O-O` and
`O-O-O` (King moves with the corresponding flag), else `parseCoreMove`. -/
def coreOrCastle (movetext : List Char) : Option Move :=
  if movetext = "O-O".toList then
    some (.mk ⟨0, 0⟩ ⟨0, 0⟩ .King .Pawn false false false true false [] [])
  else if movetext = "O-O-O".toList then
    some (.mk ⟨0, 0⟩ ⟨0, 0⟩ .King .Pawn false false false false true [] [])
  else parseCoreMove movetext

/-- Go `strings.Index(movetext, "=")` rendered as a split at the first `=`:
`some (before, after)` with the `=` removed, `none` when absent. -/
def splitAtEq : List Char → Option (List Char × List Char)
  | [] => none
  | c :: cs =>
    if c == '=' then some ([], cs)
    else (splitAtEq cs).map (fun p => (c :: p.1, p.2))

/-- Go: `parseMoveFromRaw`.  Step 1 strips the promotion (`=` then a piece
letter; a following `+`/`#` sets check/mate, any other remainder is matched
by no case of the Go `switch` and is ignored) or, absent a `=`, a trailing
`+`/`#`; steps 2-4 decompose the remaining core and re-attach the flags. -/
def parseMoveFromRaw (raw : List Char) : Option Move :=
  match splitAtEq raw with
  | some (core, promoAndSuffix) =>
    match promoAndSuffix with
    | [] => none
    | promoChar :: suffix =>
      match PieceSymbols promoChar with
      | none => none
      | some piece =>
        (coreOrCastle core).map
          (fun m => m.withSuffix piece (suffix == ['+']) (suffix == ['#']))
  | none =>
    match raw.getLast? with
    | some '+' => (coreOrCastle raw.dropLast).map (fun m => m.withSuffix .Pawn true false)
    | some '#' => (coreOrCastle raw.dropLast).map (fun m => m.withSuffix .Pawn false true)
    | _ => (coreOrCastle raw).map (fun m => m.withSuffix .Pawn false false)

/-! ## The parser (pgn.go: Parser, Parse, parseTagPair, parseMovetext,
parseRAV, isResult, ParseString)

One error constructor per `fmt.Errorf` site in the Go source. -/

inductive PError where
  /-- "unexpected EOF: game must end with a result token" -/
  | unexpectedEOFNoResult
  /-- "game must end with a result token, got %v" -/
  | noResultToken (t : Token)
  /-- "unexpected token at start of game: %v" -/
  | unexpectedTokenAtStart (t : Token)
  /-- "expected ident for tag key, got %v" -/
  | expectedTagKey (t : Token)
  /-- "expected string for tag value, got %v" -/
  | expectedTagValue (t : Token)
  /-- "expected ']' to close tag, got %v" -/
  | expectedTagClose (t : Token)
  /-- "found NAG before any moves" -/
  | nagBeforeMoves
  /-- "invalid NAG value: %v" -/
  | invalidNAGValue (l : List Char)
  /-- "found variation before any moves" -/
  | variationBeforeMoves
  /-- "expected ')' to close variation, got %v" -/
  | expectedVariationClose (t : Token)
  /-- "unexpected token in movetext: %v" -/
  | unexpectedTokenInMovetext (t : Token)
  /-- "invalid move: %s" -/
  | invalidMove (l : List Char)
  deriving DecidableEq, Repr

structure ParserConfig where
  Strict : Bool
  deriving DecidableEq, Repr

/-- Go: `type ParserOption func(*ParserConfig)`. -/
def ParserOption : Type := ParserConfig → ParserConfig

/-- Go: `WithLaxParsing()` disables strict mode. -/
def WithLaxParsing : ParserOption := fun c => { c with Strict := false }

/-- `NewParser` defaults to `Strict: true`, then applies all options. -/
def applyOptions (opts : List ParserOption) : ParserConfig :=
  opts.foldl (fun c opt => opt c) ⟨true⟩

/-- The parser state: the single current lookahead token plus the remaining
character stream held by the scanner. -/
structure ParserState where
  tok : Token
  rest : List Char
  deriving DecidableEq, Repr

/-- Go: `func (p *Parser) scan()`: pull the next token from the scanner. -/
def pAdvance (st : ParserState) : ParserState :=
  let (t, cs) := Scan st.rest
  ⟨t, cs⟩

/-- The state right after `NewParser`'s initializing `p.scan()`. -/
def initState (cs : List Char) : ParserState :=
  let (t, cs') := Scan cs
  ⟨t, cs'⟩

/-- Go: `isResult(tok)`: an asterisk, or an IDENT spelling one of the three
decisive result literals. -/
def isResult (t : Token) : Bool :=
  t.type == .ASTERISK ||
    (t.type == .IDENT &&
      (t.literal == "1-0".toList || t.literal == "0-1".toList ||
        t.literal == "1/2-1/2".toList))

/-- Go: `parseTagPair`: consume `[`, expect IDENT key, expect STRING value,
store the binding, expect `]`, consume it. -/
def parseTagPair (g : Game) (st : ParserState) : Except PError (Game × ParserState) :=
  let st1 := pAdvance st
  let key := st1.tok
  if key.type ≠ .IDENT then .error (.expectedTagKey key)
  else
    let st2 := pAdvance st1
    let value := st2.tok
    if value.type ≠ .STRING then .error (.expectedTagValue value)
    else
      let g' := { g with Tags := mapInsert g.Tags (String.mk key.literal) (String.mk value.literal) }
      let st3 := pAdvance st2
      if st3.tok.type ≠ .RBRACKET then .error (.expectedTagClose st3.tok)
      else .ok (g', pAdvance st3)

/-- Go: `parseMovetext` (with `parseRAV` inlined at the LPAREN case so the
recursion is structural on the fuel; `parseRAVF` below restates that case as
the standalone Go function and `parseMovetextF_lparen` connects the two).
`none` means the fuel ran out; the adequacy theorem shows the bound used by
`ParseRun` always suffices, so the Go code's unbounded loop terminates. -/
def parseMovetextF : Nat → ParserState → List Move → Option (Except PError (List Move × ParserState))
  | 0, _, _ => none
  | fuel + 1, st, moves =>
    match st.tok.type with
    | .EOF | .ASTERISK | .RPAREN | .LBRACKET => some (.ok (moves, st))
    | .IDENT =>
      if isResult st.tok then some (.ok (moves, st))
      else
        match parseMoveFromRaw st.tok.literal with
        | none => some (.error (.invalidMove st.tok.literal))
        | some mv => parseMovetextF fuel (pAdvance st) (moves ++ [mv])
    | .NAG =>
      if moves.isEmpty then some (.error .nagBeforeMoves)
      else if atoiOk st.tok.literal then
        parseMovetextF fuel (pAdvance st)
          (updateLast moves (fun m => m.addNAG ((digitsVal st.tok.literal : Int))))
      else some (.error (.invalidNAGValue st.tok.literal))
    | .NUMBER | .DOT | .COMMENT => parseMovetextF fuel (pAdvance st) moves
    | .LPAREN =>
      if moves.isEmpty then some (.error .variationBeforeMoves)
      else
        match parseMovetextF fuel (pAdvance st) [] with
        | none => none
        | some (.error e) => some (.error e)
        | some (.ok (vm, st2)) =>
          if st2.tok.type == .RPAREN then
            parseMovetextF fuel (pAdvance st2) (updateLast moves (fun m => m.addVariation vm))
          else some (.error (.expectedVariationClose st2.tok))
    | _ => some (.error (.unexpectedTokenInMovetext st.tok))

/-- Go: `parseRAV(parentMove)`: consume `(`, build an independent sequence
with `parseMovetext`, require and consume `)`, append the sequence to the
parent move's variation list. -/
def parseRAVF (fuel : Nat) (st : ParserState) (parentMove : Move) :
    Option (Except PError (Move × ParserState)) :=
  match parseMovetextF fuel (pAdvance st) [] with
  | none => none
  | some (.error e) => some (.error e)
  | some (.ok (vm, st2)) =>
    if st2.tok.type == .RPAREN then some (.ok (parentMove.addVariation vm, pAdvance st2))
    else some (.error (.expectedVariationClose st2.tok))

/-- Go: `Parse`: loop over the tag section, dispatch into the movetext once,
then check the trailing result token. -/
def ParseF : Nat → ParserConfig → ParserState → Game → Option (Except PError Game)
  | 0, _, _, _ => none
  | fuel + 1, c, st, g =>
    match st.tok.type with
    | .EOF =>
      if c.Strict && !g.Moves.isEmpty then some (.error .unexpectedEOFNoResult)
      else some (.ok g)
    | .LBRACKET =>
      if !g.Moves.isEmpty then some (.ok g)
      else
        match parseTagPair g st with
        | .error e => some (.error e)
        | .ok (g', st') => ParseF fuel c st' g'
    | .COMMENT => ParseF fuel c (pAdvance st) g
    | .IDENT | .NUMBER =>
      match parseMovetextF (fuel + 1) st g.Moves with
      | none => none
      | some (.error e) => some (.error e)
      | some (.ok (ms, st2)) =>
        let g2 : Game := { g with Moves := ms }
        if isResult st2.tok then some (.ok { g2 with Result := String.mk st2.tok.literal })
        else if c.Strict then some (.error (.noResultToken st2.tok))
        else some (.ok g2)
    | _ => some (.error (.unexpectedTokenAtStart st.tok))

/-- The fuel bound `ParseRun` hands to `ParseF`; adequacy is proven below. -/
def parseFuel (cs : List Char) : Nat := cs.length + 2

/-- A full parse of a character stream: `NewParser(r).Parse()`. -/
def ParseRun (c : ParserConfig) (cs : List Char) : Except PError Game :=
  (ParseF (parseFuel cs) c (initState cs) ⟨[], [], ""⟩).getD (.ok ⟨[], [], ""⟩)

/-- Go: `strings.TrimPrefix(s, "﻿")`: drop one leading byte-order mark. -/
def trimBOM (cs : List Char) : List Char :=
  match cs with
  | c :: t => if c == Char.ofNat 0xFEFF then t else cs
  | [] => []

/-- Go: `ParseString(s, opts...)`: trim a leading BOM, build the parser with
the given options (strict by default), parse. -/
def ParseString (s : String) (opts : List ParserOption) : Except PError Game :=
  ParseRun (applyOptions opts) (trimBOM s.toList)

/-! ## Auxiliary measures and predicates used by the theorems -/

/-- The termination measure of the parser loops: remaining characters plus
one for a still-unconsumed non-EOF lookahead token.  Every `p.scan()` from a
non-EOF token strictly decreases it. -/
def stMeasure (st : ParserState) : Nat :=
  st.rest.length + (if st.tok.type = .EOF then 0 else 1)

/-- Both coordinates of a square lie on the board (0-7). -/
def squareOK (s : Square) : Prop :=
  0 ≤ s.File ∧ s.File ≤ 7 ∧ 0 ≤ s.Rank ∧ s.Rank ≤ 7

/-- Both squares of a move lie on the board. -/
def moveSquaresOK (m : Move) : Prop :=
  squareOK m.From ∧ squareOK m.To

/-! ## Scanner lemmas: progress and fuel adequacy -/

theorem wsLoop_length_le (cs : List Char) : (wsLoop cs).length ≤ cs.length := by
  induction cs with
  | nil => simp [wsLoop]
  | cons c cs ih =>
    simp only [wsLoop]
    split
    · simp
    · split
      · simp
      · simpa using Nat.le_succ_of_le ih

theorem identLoop_length_le (cs : List Char) : (identLoop cs).2.length ≤ cs.length := by
  induction cs with
  | nil => simp [identLoop]
  | cons c cs ih =>
    simp only [identLoop]
    split
    · simp
    · split
      · simp
      · simpa using Nat.le_succ_of_le ih

theorem stringLoop_length_le (cs : List Char) : (stringLoop cs).2.length ≤ cs.length := by
  induction cs with
  | nil => simp [stringLoop]
  | cons c cs ih =>
    simp only [stringLoop]
    split
    · simp
    · simpa using Nat.le_succ_of_le ih

theorem commentBlockLoop_length_le (cs : List Char) :
    (commentBlockLoop cs).2.length ≤ cs.length := by
  induction cs with
  | nil => simp [commentBlockLoop]
  | cons c cs ih =>
    simp only [commentBlockLoop]
    split
    · simp
    · simpa using Nat.le_succ_of_le ih

theorem commentLineLoop_length_le (cs : List Char) :
    (commentLineLoop cs).2.length ≤ cs.length := by
  induction cs with
  | nil => simp [commentLineLoop]
  | cons c cs ih =>
    simp only [commentLineLoop]
    split
    · simp
    · simpa using Nat.le_succ_of_le ih

theorem nagLoop_length_le (cs : List Char) : (nagLoop cs).2.length ≤ cs.length := by
  induction cs with
  | nil => simp [nagLoop]
  | cons c cs ih =>
    simp only [nagLoop]
    split
    · simpa using Nat.le_succ_of_le ih
    · simp

theorem wsLoop_cons_of_ws {c : Char} (cs : List Char) (h : IsWhitespace c = true) :
    wsLoop (c :: cs) = wsLoop cs := by
  have hne : (c == eofChar) = false := by
    cases hb : c == eofChar with
    | false => rfl
    | true =>
      have : c = eofChar := eq_of_beq hb
      subst this
      simp [IsWhitespace, eofChar] at h
  simp [wsLoop, hne, h]

theorem ScanF_isSome : ∀ (fuel : Nat) (cs : List Char), cs.length < fuel →
    (ScanF fuel cs).isSome = true := by
  intro fuel
  induction fuel with
  | zero => intro cs h; omega
  | succ n ih =>
    intro cs h
    cases cs with
    | nil => rfl
    | cons c cs =>
      simp only [ScanF, read]
      by_cases hw : IsWhitespace c
      · rw [if_pos hw]
        apply ih
        have := wsLoop_length_le cs
        rw [wsLoop_cons_of_ws cs hw]
        simp at h
        omega
      · rw [if_neg hw]
        rfl

theorem scanIdent_snd (cs : List Char) : (scanIdent cs).2 = (identLoop cs).2 := by
  simp only [scanIdent]
  split <;> rfl

theorem scanString_snd (cs : List Char) : (scanString cs).2 = (stringLoop cs).2 := rfl

theorem scanCommentBlock_snd (cs : List Char) :
    (scanCommentBlock cs).2 = (commentBlockLoop cs).2 := rfl

theorem scanCommentLine_snd (cs : List Char) :
    (scanCommentLine cs).2 = (commentLineLoop cs).2 := rfl

theorem scanNAG_snd (cs : List Char) : (scanNAG cs).2 = (nagLoop cs).2 := rfl

theorem identLoop_cons_of_ident {c : Char} (cs : List Char)
    (h : (IsLetter c || IsDigit c) = true) :
    identLoop (c :: cs) = (c :: (identLoop cs).1, (identLoop cs).2) := by
  have hne : (c == eofChar) = false := by
    cases hb : c == eofChar with
    | false => rfl
    | true =>
      have : c = eofChar := eq_of_beq hb
      subst this
      simp [IsLetter, IsDigit, eofChar] at h
  have hin : (IsLetter c || IsDigit c || c == '_' || c == '+' || c == '#' ||
      c == 'x' || c == '=' || c == '-') = true := by
    simp only [h, Bool.true_or]
  simp [identLoop, hne, hin]

set_option maxHeartbeats 1600000 in
theorem scanSwitch_rest_le (c : Char) (cs : List Char) :
    (scanSwitch c cs (c :: cs)).2.length ≤ cs.length := by
  unfold scanSwitch
  by_cases hid : (IsLetter c || IsDigit c) = true
  · rw [if_pos hid, scanIdent_snd, identLoop_cons_of_ident cs hid]
    exact identLoop_length_le cs
  · rw [if_neg hid]
    split
    · exact Nat.le_refl _
    · split
      · exact Nat.le_refl _
      · split
        · exact Nat.le_refl _
        · split
          · exact Nat.le_refl _
          · split
            · exact Nat.le_refl _
            · split
              · rw [scanString_snd]
                exact stringLoop_length_le cs
              · split
                · exact Nat.le_refl _
                · split
                  · exact Nat.le_refl _
                  · split
                    · rw [scanCommentBlock_snd]
                      exact commentBlockLoop_length_le cs
                    · split
                      · rw [scanCommentLine_snd]
                        exact commentLineLoop_length_le cs
                      · split
                        · rw [scanNAG_snd]
                          exact nagLoop_length_le cs
                        · exact Nat.le_refl _

theorem ScanF_some_rest : ∀ (fuel : Nat) (cs : List Char) (p : Token × List Char),
    ScanF fuel cs = some p → p.2.length ≤ cs.length ∧ (cs ≠ [] → p.2.length < cs.length) := by
  intro fuel
  induction fuel with
  | zero => intro cs p h; exact absurd h (by simp [ScanF])
  | succ n ih =>
    intro cs p h
    cases cs with
    | nil =>
      have hnil : ScanF (n + 1) ([] : List Char) = some (⟨.EOF, []⟩, []) := rfl
      rw [hnil] at h
      cases h
      simp
    | cons c cs =>
      rw [ScanF] at h
      simp only [read] at h
      by_cases hw : IsWhitespace c
      · rw [if_pos hw] at h
        have := (ih _ _ h).1
        rw [wsLoop_cons_of_ws cs hw] at this
        have hle := wsLoop_length_le cs
        constructor
        · simp only [List.length_cons]
          omega
        · intro _
          simp only [List.length_cons]
          omega
      · rw [if_neg hw] at h
        have hp : p = scanSwitch c cs (c :: cs) := by
          cases h
          rfl
        subst hp
        have := scanSwitch_rest_le c cs
        constructor
        · simp only [List.length_cons]
          omega
        · intro _
          simp only [List.length_cons]
          omega

theorem ScanF_mono : ∀ (fuel fuel' : Nat) (cs : List Char) (p : Token × List Char),
    ScanF fuel cs = some p → fuel ≤ fuel' → ScanF fuel' cs = some p := by
  intro fuel
  induction fuel with
  | zero => intro _ _ _ h _; exact absurd h (by simp [ScanF])
  | succ n ih =>
    intro fuel' cs p h hle
    obtain ⟨m, rfl⟩ : ∃ m, fuel' = m + 1 := ⟨fuel' - 1, by omega⟩
    rw [ScanF] at h ⊢
    by_cases hw : IsWhitespace (read cs).1
    · simp only [hw, if_true] at h ⊢
      exact ih m _ _ h (by omega)
    · simp only [hw] at h ⊢
      exact h

theorem Scan_eq_of_ScanF {fuel : Nat} {cs : List Char} {p : Token × List Char}
    (h : ScanF fuel cs = some p) : Scan cs = p := by
  rcases Nat.le_total fuel (cs.length + 1) with hle | hle
  · rw [Scan, ScanF_mono fuel (cs.length + 1) cs p h hle]
    rfl
  · have hs := ScanF_isSome (cs.length + 1) cs (by omega)
    obtain ⟨q, hq⟩ := Option.isSome_iff_exists.mp hs
    have := ScanF_mono (cs.length + 1) fuel cs q hq hle
    rw [this] at h
    cases h
    rw [Scan, hq]
    rfl

theorem Scan_nil : Scan [] = (⟨.EOF, []⟩, []) := rfl

theorem Scan_rest_le (cs : List Char) : (Scan cs).2.length ≤ cs.length := by
  have hs := ScanF_isSome (cs.length + 1) cs (by omega)
  obtain ⟨p, hp⟩ := Option.isSome_iff_exists.mp hs
  rw [Scan_eq_of_ScanF hp]
  exact (ScanF_some_rest _ _ _ hp).1

theorem Scan_rest_lt (cs : List Char) (h : cs ≠ []) : (Scan cs).2.length < cs.length := by
  have hs := ScanF_isSome (cs.length + 1) cs (by omega)
  obtain ⟨p, hp⟩ := Option.isSome_iff_exists.mp hs
  rw [Scan_eq_of_ScanF hp]
  exact (ScanF_some_rest _ _ _ hp).2 h

/-! ## Parser measure lemmas -/

theorem stMeasure_mk (t : Token) (r : List Char) :
    stMeasure ⟨t, r⟩ = r.length + (if t.type = .EOF then 0 else 1) := rfl

theorem stMeasure_le_rest_succ (st : ParserState) : stMeasure st ≤ st.rest.length + 1 := by
  unfold stMeasure
  split <;> omega

theorem pAdvance_def (st : ParserState) :
    pAdvance st = ⟨(Scan st.rest).1, (Scan st.rest).2⟩ := by
  unfold pAdvance
  rcases hs : Scan st.rest with ⟨t, cs⟩
  rfl

theorem pAdvance_measure_le (st : ParserState) : stMeasure (pAdvance st) ≤ stMeasure st := by
  rw [pAdvance_def, stMeasure_mk]
  unfold stMeasure
  rcases hrest : st.rest with _ | ⟨c, cs⟩
  · rw [Scan_nil]
    simp
  · have hlt : (Scan (c :: cs)).2.length < (c :: cs).length :=
      Scan_rest_lt (c :: cs) (by simp)
    have h1 : (if (Scan (c :: cs)).1.type = .EOF then 0 else 1) ≤ 1 := by split <;> omega
    simp only [List.length_cons] at hlt ⊢
    omega

theorem pAdvance_measure_lt (st : ParserState) (h : st.tok.type ≠ .EOF) :
    stMeasure (pAdvance st) < stMeasure st := by
  rw [pAdvance_def, stMeasure_mk]
  unfold stMeasure
  rw [if_neg h]
  rcases hrest : st.rest with _ | ⟨c, cs⟩
  · rw [Scan_nil]
    simp
  · have hlt : (Scan (c :: cs)).2.length < (c :: cs).length :=
      Scan_rest_lt (c :: cs) (by simp)
    have h1 : (if (Scan (c :: cs)).1.type = .EOF then 0 else 1) ≤ 1 := by split <;> omega
    simp only [List.length_cons] at hlt ⊢
    omega

theorem parseTagPair_measure_lt {g g' : Game} {st st' : ParserState}
    (hb : st.tok.type = .LBRACKET)
    (h : parseTagPair g st = .ok (g', st')) : stMeasure st' < stMeasure st := by
  unfold parseTagPair at h
  dsimp only at h
  split at h
  · exact absurd h (by simp)
  · split at h
    · exact absurd h (by simp)
    · split at h
      · exact absurd h (by simp)
      · have hst' : st' = pAdvance (pAdvance (pAdvance (pAdvance st))) := by
          cases h
          rfl
        subst hst'
        calc stMeasure (pAdvance (pAdvance (pAdvance (pAdvance st))))
            ≤ stMeasure (pAdvance (pAdvance (pAdvance st))) := pAdvance_measure_le _
          _ ≤ stMeasure (pAdvance (pAdvance st)) := pAdvance_measure_le _
          _ ≤ stMeasure (pAdvance st) := pAdvance_measure_le _
          _ < stMeasure st := pAdvance_measure_lt st (by rw [hb]; simp)

/-- On a successful movetext run the final parser state is no heavier than
the initial one (the loop only ever advances the scanner). -/
theorem parseMovetextF_measure_le :
    ∀ (fuel : Nat) (st : ParserState) (moves ms : List Move) (st2 : ParserState),
    parseMovetextF fuel st moves = some (.ok (ms, st2)) → stMeasure st2 ≤ stMeasure st := by
  intro fuel
  induction fuel with
  | zero => intro st moves ms st2 h; exact absurd h (by simp [parseMovetextF])
  | succ n ih =>
    intro st moves ms st2 h
    rw [parseMovetextF] at h
    cases htok : st.tok.type
    all_goals simp only [htok] at h
    case EOF | ASTERISK | RPAREN | LBRACKET =>
      simp only [Option.some.injEq, Except.ok.injEq, Prod.mk.injEq] at h
      rw [← h.2]
    case IDENT =>
      split at h
      · simp only [Option.some.injEq, Except.ok.injEq, Prod.mk.injEq] at h
        rw [← h.2]
      · split at h
        · exact absurd h (by simp)
        · exact le_trans (ih _ _ _ _ h) (pAdvance_measure_le st)
    case NAG =>
      split at h
      · exact absurd h (by simp)
      · split at h
        · exact le_trans (ih _ _ _ _ h) (pAdvance_measure_le st)
        · exact absurd h (by simp)
    case NUMBER | DOT | COMMENT =>
      exact le_trans (ih _ _ _ _ h) (pAdvance_measure_le st)
    case LPAREN =>
      split at h
      · exact absurd h (by simp)
      · rcases hin : parseMovetextF n (pAdvance st) [] with _ | (_ | ⟨vm, stI⟩)
        · rw [hin] at h
          exact absurd h (by simp)
        · rw [hin] at h
          exact absurd h (by simp)
        · rw [hin] at h
          dsimp only at h
          split at h
          · calc stMeasure st2 ≤ stMeasure (pAdvance stI) := ih _ _ _ _ h
              _ ≤ stMeasure stI := pAdvance_measure_le stI
              _ ≤ stMeasure (pAdvance st) := ih _ _ _ _ hin
              _ ≤ stMeasure st := pAdvance_measure_le st
          · exact absurd h (by simp)
    case ILLEGAL | STRING | RBRACKET =>
      exact absurd h (by simp)

/-- Fuel adequacy for the movetext loop: any fuel exceeding the measure of
the entry state is enough, so the Go loop always terminates. -/
theorem parseMovetextF_isSome :
    ∀ (fuel : Nat) (st : ParserState) (moves : List Move), stMeasure st < fuel →
    (parseMovetextF fuel st moves).isSome = true := by
  intro fuel
  induction fuel with
  | zero => intro st moves h; omega
  | succ n ih =>
    intro st moves h
    rw [parseMovetextF]
    cases htok : st.tok.type
    all_goals simp only [htok]
    case EOF | ASTERISK | RPAREN | LBRACKET => rfl
    case IDENT =>
      have hadv : stMeasure (pAdvance st) < n :=
        lt_of_lt_of_le (pAdvance_measure_lt st (by rw [htok]; simp)) (by omega)
      split
      · rfl
      · split
        · rfl
        · exact ih _ _ hadv
    case NAG =>
      have hadv : stMeasure (pAdvance st) < n :=
        lt_of_lt_of_le (pAdvance_measure_lt st (by rw [htok]; simp)) (by omega)
      split
      · rfl
      · split
        · exact ih _ _ hadv
        · rfl
    case NUMBER | DOT | COMMENT =>
      have hadv : stMeasure (pAdvance st) < n :=
        lt_of_lt_of_le (pAdvance_measure_lt st (by rw [htok]; simp)) (by omega)
      exact ih _ _ hadv
    case LPAREN =>
      have hadv : stMeasure (pAdvance st) < n :=
        lt_of_lt_of_le (pAdvance_measure_lt st (by rw [htok]; simp)) (by omega)
      split
      · rfl
      · rcases hin : parseMovetextF n (pAdvance st) [] with _ | (_ | ⟨vm, stI⟩)
        · exact absurd hin (by
            have := ih _ ([] : List Move) hadv
            intro hc
            rw [hc] at this
            simp at this)
        · rfl
        · dsimp only
          split
          · apply ih
            rename_i hrp
            have hrpeq : stI.tok.type = .RPAREN := eq_of_beq hrp
            calc stMeasure (pAdvance stI) < stMeasure stI :=
                pAdvance_measure_lt stI (by rw [hrpeq]; simp)
              _ ≤ stMeasure (pAdvance st) := parseMovetextF_measure_le _ _ _ _ _ hin
              _ < n := hadv
          · rfl
    case ILLEGAL | STRING | RBRACKET => rfl

/-- Fuel adequacy for the top-level `Parse` loop. -/
theorem ParseF_isSome :
    ∀ (fuel : Nat) (c : ParserConfig) (st : ParserState) (g : Game), stMeasure st < fuel →
    (ParseF fuel c st g).isSome = true := by
  intro fuel
  induction fuel with
  | zero => intro c st g h; omega
  | succ n ih =>
    intro c st g h
    rw [ParseF]
    cases htok : st.tok.type
    all_goals simp only [htok]
    case EOF =>
      split <;> rfl
    case LBRACKET =>
      split
      · rfl
      · rcases htp : parseTagPair g st with e | ⟨g', st'⟩
        · rfl
        · apply ih
          have := parseTagPair_measure_lt htok htp
          omega
    case COMMENT =>
      apply ih
      have := pAdvance_measure_lt st (by rw [htok]; simp)
      omega
    case IDENT | NUMBER =>
      rcases hin : parseMovetextF (n + 1) st g.Moves with _ | (_ | ⟨ms, st2⟩)
      · exact absurd hin (by
          have := parseMovetextF_isSome (n + 1) st g.Moves h
          intro hc
          rw [hc] at this
          simp at this)
      · rfl
      · dsimp only
        split
        · rfl
        · split <;> rfl
    case ILLEGAL | STRING | RBRACKET | LPAREN | RPAREN | DOT | ASTERISK | NAG =>
      rfl

theorem initState_def (cs : List Char) : initState cs = ⟨(Scan cs).1, (Scan cs).2⟩ := by
  unfold initState
  rcases hs : Scan cs with ⟨t, r⟩
  rfl

theorem initState_measure (cs : List Char) : stMeasure (initState cs) < parseFuel cs := by
  rw [initState_def, stMeasure_mk, parseFuel]
  have h1 := Scan_rest_le cs
  have h2 : (if (Scan cs).1.type = .EOF then 0 else 1) ≤ 1 := by split <;> omega
  omega

/-! ## Claim theorems -/

/-- C1: for every finite input character sequence and either parsing mode,
the parser, run with the fuel budget `ParseRun` supplies, completes: it
never exhausts its fuel, so the Go `Parse` loop (whose iterations this fuel
counts) terminates on all inputs, and by the type of the result it returns
either a `Game` or an error value.  Every partial operation of the Go source
(slice indexing, map access, `Atoi`) is guarded in the code and is modelled
by a total function, so no input can cause a runtime fault. -/
theorem C1_parse_terminates (c : ParserConfig) (cs : List Char) :
    (ParseF (parseFuel cs) c (initState cs) ⟨[], [], ""⟩).isSome = true :=
  ParseF_isSome (parseFuel cs) c (initState cs) ⟨[], [], ""⟩ (initState_measure cs)

/-- C3: parsing `"[Event \"x\"]\n1. e4"` in strict mode (the default) fails
with the termination error (no result token after at least one move), while
the same input under `WithLaxParsing` succeeds with exactly one move (pawn
to e4) and an empty `Result`. -/
theorem C3_strict_lax_termination :
    ParseString "[Event \"x\"]\n1. e4" [] = .error (.noResultToken ⟨.EOF, []⟩) ∧
    ParseString "[Event \"x\"]\n1. e4" [WithLaxParsing] =
      .ok ⟨[("Event", "x")],
           [.mk ⟨0, 0⟩ ⟨4, 3⟩ .Pawn .Pawn false false false false false [] []], ""⟩ :=
  ⟨rfl, rfl⟩

/-- C8: parsing `"1. exd8=R# *"` succeeds with exactly one move: a pawn
capture promoting to a rook with the mate flag set, destination d8
(file 3, rank 7); the check and castling flags stay false, the origin rank
stays at its zero default (the origin file e is encoded and recovered). -/
theorem C8_capture_promotion_mate :
    ParseString "1. exd8=R# *" [] =
      .ok ⟨[], [.mk ⟨4, 0⟩ ⟨3, 7⟩ .Pawn .Rook true false true false false [] []], "*"⟩ :=
  rfl

/-- C4: a left parenthesis with no preceding move in the current sequence is
a fatal error; otherwise the parenthesized sequence is parsed recursively,
a missing right parenthesis is fatal, and on success the sequence is
appended to the `Variations` of the immediately preceding move; and the
concrete scenario `"1. e4 (1. d4) 1... e5 *"` produces move 0 = pawn to e4
carrying exactly one variation of exactly one move (pawn to d4) and
move 1 = pawn to e5. -/
theorem C4_rav_attachment :
    (ParseString "1. e4 (1. d4) 1... e5 *" [] =
      .ok ⟨[],
        [.mk ⟨0, 0⟩ ⟨4, 3⟩ .Pawn .Pawn false false false false false
            [[.mk ⟨0, 0⟩ ⟨3, 3⟩ .Pawn .Pawn false false false false false [] []]] [],
         .mk ⟨0, 0⟩ ⟨4, 4⟩ .Pawn .Pawn false false false false false [] []], "*"⟩) ∧
    (∀ (fuel : Nat) (st : ParserState), st.tok.type = .LPAREN →
      parseMovetextF (fuel + 1) st [] = some (.error .variationBeforeMoves)) ∧
    (∀ (fuel : Nat) (st : ParserState) (moves vm : List Move) (st2 : ParserState),
      st.tok.type = .LPAREN → moves ≠ [] →
      parseMovetextF fuel (pAdvance st) [] = some (.ok (vm, st2)) →
      st2.tok.type ≠ .RPAREN →
      parseMovetextF (fuel + 1) st moves =
        some (.error (.expectedVariationClose st2.tok))) ∧
    (∀ (fuel : Nat) (st : ParserState) (moves vm : List Move) (st2 : ParserState),
      st.tok.type = .LPAREN → moves ≠ [] →
      parseMovetextF fuel (pAdvance st) [] = some (.ok (vm, st2)) →
      st2.tok.type = .RPAREN →
      parseMovetextF (fuel + 1) st moves =
        parseMovetextF fuel (pAdvance st2) (updateLast moves (fun m => m.addVariation vm))) := by
  refine ⟨rfl, ?_, ?_, ?_⟩
  · intro fuel st h
    rw [parseMovetextF]
    simp only [h]
    rfl
  · intro fuel st moves vm st2 h hm hin hrp
    rw [parseMovetextF]
    simp only [h]
    have hme : moves.isEmpty = false := by
      cases moves
      · exact absurd rfl hm
      · rfl
    have hb : (st2.tok.type == TokenType.RPAREN) = false := by
      cases hbx : st2.tok.type == TokenType.RPAREN
      · rfl
      · exact absurd (eq_of_beq hbx) hrp
    simp only [hme, Bool.false_eq_true, if_false, hin, hb]
  · intro fuel st moves vm st2 h hm hin hrp
    rw [parseMovetextF]
    simp only [h]
    have hme : moves.isEmpty = false := by
      cases moves
      · exact absurd rfl hm
      · rfl
    have hb : (st2.tok.type == TokenType.RPAREN) = true := by
      rw [hrp]
      rfl
    simp only [hme, Bool.false_eq_true, if_false, hin, hb, if_true]

/-- Witness for C4: the universal parts applied at concrete states — a
lone `(` before any move errors; `(` followed by end of input errors with
the missing-close-parenthesis error; `(` immediately closed by `)` steps to
the continuation carrying the appended (empty) variation. -/
theorem C4_rav_attachment_witness :
    parseMovetextF 1 ⟨⟨.LPAREN, ['(']⟩, []⟩ [] = some (.error .variationBeforeMoves) ∧
    parseMovetextF 2 ⟨⟨.LPAREN, ['(']⟩, []⟩ [emptyMove] =
      some (.error (.expectedVariationClose ⟨.EOF, []⟩)) ∧
    parseMovetextF 2 ⟨⟨.LPAREN, ['(']⟩, [')']⟩ [emptyMove] =
      parseMovetextF 1 (pAdvance ⟨⟨.RPAREN, [')']⟩, []⟩)
        (updateLast [emptyMove] (fun m => m.addVariation [])) :=
  ⟨C4_rav_attachment.2.1 0 ⟨⟨.LPAREN, ['(']⟩, []⟩ rfl,
   C4_rav_attachment.2.2.1 1 ⟨⟨.LPAREN, ['(']⟩, []⟩ [emptyMove] [] ⟨⟨.EOF, []⟩, []⟩
     rfl (by simp) rfl (by decide),
   C4_rav_attachment.2.2.2 1 ⟨⟨.LPAREN, ['(']⟩, [')']⟩ [emptyMove] [] ⟨⟨.RPAREN, [')']⟩, []⟩
     rfl (by simp) rfl rfl⟩

/-- C5: a NAG token with no preceding move in the current sequence is a
fatal error; otherwise its integer value is appended to the NAG list of the
last move of the sequence being parsed; and the concrete scenario
`"1. e4 $1 1... e5 $2 $18 *"` yields move 0 with NAGs `[1]` and move 1 with
NAGs `[2, 18]` in encounter order. -/
theorem C5_nag_attachment :
    (ParseString "1. e4 $1 1... e5 $2 $18 *" [] =
      .ok ⟨[],
        [.mk ⟨0, 0⟩ ⟨4, 3⟩ .Pawn .Pawn false false false false false [] [1],
         .mk ⟨0, 0⟩ ⟨4, 4⟩ .Pawn .Pawn false false false false false [] [2, 18]], "*"⟩) ∧
    (∀ (fuel : Nat) (st : ParserState), st.tok.type = .NAG →
      parseMovetextF (fuel + 1) st [] = some (.error .nagBeforeMoves)) ∧
    (∀ (fuel : Nat) (st : ParserState) (moves : List Move),
      st.tok.type = .NAG → moves ≠ [] → atoiOk st.tok.literal = true →
      parseMovetextF (fuel + 1) st moves =
        parseMovetextF fuel (pAdvance st)
          (updateLast moves (fun m => m.addNAG ((digitsVal st.tok.literal : Int))))) := by
  refine ⟨rfl, ?_, ?_⟩
  · intro fuel st h
    rw [parseMovetextF]
    simp only [h]
    rfl
  · intro fuel st moves h hm hval
    rw [parseMovetextF]
    simp only [h]
    have hme : moves.isEmpty = false := by
      cases moves
      · exact absurd rfl hm
      · rfl
    simp only [hme, Bool.false_eq_true, if_false, hval, if_true]

/-- Witness for C5: a lone `$1` before any move errors; `$1` after one move
steps to the continuation with NAG 1 appended to that move. -/
theorem C5_nag_attachment_witness :
    parseMovetextF 1 ⟨⟨.NAG, ['1']⟩, []⟩ [] = some (.error .nagBeforeMoves) ∧
    parseMovetextF 2 ⟨⟨.NAG, ['1']⟩, []⟩ [emptyMove] =
      parseMovetextF 1 (pAdvance ⟨⟨.NAG, ['1']⟩, []⟩)
        (updateLast [emptyMove] (fun m => m.addNAG ((digitsVal ['1'] : Int)))) :=
  ⟨C5_nag_attachment.2.1 0 ⟨⟨.NAG, ['1']⟩, []⟩ rfl,
   C5_nag_attachment.2.2 1 ⟨⟨.NAG, ['1']⟩, []⟩ [emptyMove] rfl (by simp) (by decide)⟩

theorem find_map_replace (k v : String) :
    ∀ m : List (String × String), m.any (fun p => p.1 == k) = true →
    (m.map (fun p => if p.1 == k then (k, v) else p)).find? (fun p => p.1 == k) =
      some (k, v) := by
  intro m
  induction m with
  | nil => intro h; simp at h
  | cons p m ih =>
    intro h
    cases hp : (p.1 == k) with
    | true =>
      simp only [List.map_cons, hp, if_true]
      rw [List.find?_cons_of_pos _ (by simp)]
    | false =>
      simp only [List.map_cons, hp, Bool.false_eq_true, if_false]
      rw [List.find?_cons_of_neg _ (by rw [hp]; simp)]
      apply ih
      simp only [List.any_cons, hp, Bool.false_or] at h
      exact h

theorem tagsGet_mapInsert (m : List (String × String)) (k v : String) :
    tagsGet (mapInsert m k v) k = some v := by
  unfold tagsGet mapInsert
  cases ha : m.any (fun p => p.1 == k) with
  | true =>
    rw [if_pos rfl, find_map_replace k v m ha]
    rfl
  | false =>
    rw [if_neg (by simp)]
    have hnone : m.find? (fun p => p.1 == k) = none := by
      rw [List.find?_eq_none]
      intro x hx
      intro hpx
      have : m.any (fun p => p.1 == k) = true := List.any_eq_true.mpr ⟨x, hx, hpx⟩
      rw [ha] at this
      exact Bool.false_ne_true this
    rw [List.find?_append, hnone]
    simp

/-- C10: duplicate tag keys are not an error: each later tag pair with the
same key overwrites the stored value, so the returned `Tags` maps the key to
the value of the last occurrence.  Concretely, parsing two `Event` tags
keeps `"two"`; generally, looking up a just-inserted key returns the new
value, and whether `parseTagPair` succeeds never depends on the tags already
stored. -/
theorem C10_duplicate_tag_last_wins :
    (ParseString "[Event \"one\"] [Event \"two\"] 1. e4 *" [] =
      .ok ⟨[("Event", "two")],
        [.mk ⟨0, 0⟩ ⟨4, 3⟩ .Pawn .Pawn false false false false false [] []], "*"⟩) ∧
    (∀ (m : List (String × String)) (k v : String),
      tagsGet (mapInsert m k v) k = some v) ∧
    (∀ (t1 t2 : List (String × String)) (mv : List Move) (r : String) (st : ParserState),
      (∃ p, parseTagPair ⟨t1, mv, r⟩ st = .ok p) ↔
        (∃ p, parseTagPair ⟨t2, mv, r⟩ st = .ok p)) := by
  refine ⟨rfl, tagsGet_mapInsert, ?_⟩
  intro t1 t2 mv r st
  unfold parseTagPair
  dsimp only
  split
  · simp
  · split
    · simp
    · split
      · simp
      · simp

theorem splitAtEq_append (core rest : List Char) (h : '=' ∉ core) :
    splitAtEq (core ++ '=' :: rest) = some (core, rest) := by
  induction core with
  | nil => simp [splitAtEq]
  | cons c core ih =>
    have hc : (c == '=') = false := by
      cases hb : c == '='
      · rfl
      · have hcq : c = '=' := eq_of_beq hb
        subst hcq
        exact absurd (List.mem_cons_self _ _) h
    have h' : '=' ∉ core := fun hm => h (List.mem_cons_of_mem c hm)
    show splitAtEq (c :: (core ++ '=' :: rest)) = some (c :: core, rest)
    rw [splitAtEq]
    simp only [hc, Bool.false_eq_true, if_false]
    rw [ih h']
    rfl

/-- C2 (as amended): for a move token written `core = rest` with no `=` in
the core, decomposition fails when `rest` is empty or does not start with a
piece letter; when `rest` is a piece letter followed by a suffix, the suffix
`+` sets the check flag and `#` the mate flag, and ANY other suffix
(including garbage such as `zz`) is matched by no case of the Go `switch`
and is silently ignored — the token still parses whenever the core does.
The original claim, that trailing text other than `+`/`#` after the
promotion piece invalidates the token, is refuted by
`C2_promotion_counterexample`. -/
theorem C2_promotion_amended (core rest : List Char) (h : '=' ∉ core) :
    parseMoveFromRaw (core ++ '=' :: rest) =
      match rest with
      | [] => none
      | promoChar :: suffix =>
        match PieceSymbols promoChar with
        | none => none
        | some piece =>
          (coreOrCastle core).map
            (fun m => m.withSuffix piece (suffix == ['+']) (suffix == ['#'])) := by
  unfold parseMoveFromRaw
  rw [splitAtEq_append core rest h]

/-- Counterexample to C2 as stated: the token `e8=Qzz` contains `=`, its
text after the promotion piece is `zz` (neither `+`, `#`, nor empty), yet
move decomposition succeeds (promotion Queen, no check/mate flags) and the
whole parse of `"1. e8=Qzz *"` succeeds. -/
theorem C2_promotion_counterexample :
    parseMoveFromRaw "e8=Qzz".toList =
      some (.mk ⟨0, 0⟩ ⟨4, 7⟩ .Pawn .Queen false false false false false [] []) ∧
    ParseString "1. e8=Qzz *" [] =
      .ok ⟨[], [.mk ⟨0, 0⟩ ⟨4, 7⟩ .Pawn .Queen false false false false false [] []], "*"⟩ :=
  ⟨rfl, rfl⟩

/-- Witness for C2 (amended), at `core = e8`, `rest = Qzz`. -/
theorem C2_promotion_amended_witness :
    parseMoveFromRaw ("e8".toList ++ '=' :: "Qzz".toList) =
      (coreOrCastle "e8".toList).map
        (fun m => m.withSuffix .Queen ("zz".toList == ['+']) ("zz".toList == ['#'])) :=
  C2_promotion_amended "e8".toList "Qzz".toList (by decide)

theorem Char_le_iff (a b : Char) : a ≤ b ↔ a.toNat ≤ b.toNat := by
  rw [Char.le_def, UInt32.le_def, BitVec.le_def]
  exact Iff.rfl

theorem IsFile_range {c : Char} (h : IsFile c = true) : 97 ≤ c.toNat ∧ c.toNat ≤ 104 := by
  unfold IsFile at h
  rw [Bool.and_eq_true, decide_eq_true_iff, decide_eq_true_iff] at h
  obtain ⟨h1, h2⟩ := h
  exact ⟨(Char_le_iff 'a' c).mp h1, (Char_le_iff c 'h').mp h2⟩

theorem IsRank_range {c : Char} (h : IsRank c = true) : 49 ≤ c.toNat ∧ c.toNat ≤ 56 := by
  unfold IsRank at h
  rw [Bool.and_eq_true, decide_eq_true_iff, decide_eq_true_iff] at h
  obtain ⟨h1, h2⟩ := h
  exact ⟨(Char_le_iff '1' c).mp h1, (Char_le_iff c '8').mp h2⟩

theorem newSquare_ok {s : List Char} {sq : Square} (h : newSquare s = some sq) :
    squareOK sq := by
  unfold newSquare at h
  split at h
  · rename_i a b
    split at h
    · rename_i hg
      rw [Bool.and_eq_true] at hg
      obtain ⟨hf, hr⟩ := hg
      have h1 := IsFile_range hf
      have h2 := IsRank_range hr
      cases h
      unfold squareOK
      dsimp only
      omega
    · exact absurd h (by simp)
  · exact absurd h (by simp)

theorem newSquare_none {f r : Char} (h : (IsFile f && IsRank r) = false) :
    newSquare [f, r] = none := by
  unfold newSquare
  simp [h]

theorem squareOK_zero : squareOK ⟨0, 0⟩ := by
  unfold squareOK
  dsimp only
  omega

theorem parseDisambiguation_snd_ok (l : List Char) :
    squareOK (parseDisambiguation l).2 := by
  unfold parseDisambiguation
  rcases l with _ | ⟨c, rest⟩
  · exact squareOK_zero
  · dsimp only
    split
    · exact squareOK_zero
    · split
      · rename_i hf
        have := IsFile_range hf
        unfold squareOK
        dsimp only
        omega
      · split
        · rename_i hr
          have := IsRank_range hr
          unfold squareOK
          dsimp only
          omega
        · exact squareOK_zero

theorem withSuffix_squares (m : Move) (p : PieceType) (c1 c2 : Bool) :
    (m.withSuffix p c1 c2).From = m.From ∧ (m.withSuffix p c1 c2).To = m.To := by
  cases m
  exact ⟨rfl, rfl⟩

theorem parseCoreRest_ok {raw : List Char} {m : Move} (h : parseCoreRest raw = some m) :
    moveSquaresOK m := by
  unfold parseCoreRest at h
  split at h
  · exact absurd h (by simp)
  · rcases hns : newSquare (raw.drop (raw.length - 2)) with _ | dest
    · rw [hns] at h
      exact absurd h (by simp)
    · rw [hns] at h
      dsimp only at h
      rcases hpp : parsePiece (raw.take (raw.length - 2)) with ⟨t1, piece⟩
      rw [hpp] at h
      dsimp only at h
      rcases hpd : parseDisambiguation t1 with ⟨t2, fromSq⟩
      rw [hpd] at h
      dsimp only at h
      have hfrom : squareOK fromSq := by
        have := parseDisambiguation_snd_ok t1
        rw [hpd] at this
        exact this
      have hto : squareOK dest := newSquare_ok hns
      rcases t2 with _ | ⟨c, t⟩
      · dsimp only at h
        split at h
        · cases h
          exact ⟨hfrom, hto⟩
        · exact absurd h (by simp)
      · dsimp only at h
        split at h
        · split at h
          · cases h
            exact ⟨hfrom, hto⟩
          · exact absurd h (by simp)
        · split at h
          · cases h
            exact ⟨hfrom, hto⟩
          · exact absurd h (by simp)

theorem parseCoreMove_ok {raw : List Char} {m : Move} (h : parseCoreMove raw = some m) :
    moveSquaresOK m := by
  unfold parseCoreMove at h
  split at h
  · rename_i c0 c1 c2 c3
    split at h
    · rename_i hg
      rcases hns : newSquare [c2, c3] with _ | dest
      · rw [hns] at h
        exact absurd h (by simp)
      · rw [hns] at h
        dsimp only at h
        cases h
        rw [Bool.and_eq_true] at hg
        have h1 := IsFile_range hg.1
        have hto := newSquare_ok hns
        refine ⟨?_, hto⟩
        show squareOK ⟨(c0.toNat : Int) - 97, 0⟩
        unfold squareOK
        dsimp only
        omega
    · exact parseCoreRest_ok h
  · exact parseCoreRest_ok h

theorem coreOrCastle_ok {core : List Char} {m : Move} (h : coreOrCastle core = some m) :
    moveSquaresOK m := by
  unfold coreOrCastle at h
  split at h
  · cases h
    exact ⟨squareOK_zero, squareOK_zero⟩
  · split at h
    · cases h
      exact ⟨squareOK_zero, squareOK_zero⟩
    · exact parseCoreMove_ok h

theorem map_withSuffix_ok {core : List Char} {p : PieceType} {c1 c2 : Bool} {m : Move}
    (h : (coreOrCastle core).map (fun m0 => m0.withSuffix p c1 c2) = some m) :
    moveSquaresOK m := by
  obtain ⟨m0, hcc, hm⟩ := Option.map_eq_some'.mp h
  rw [← hm]
  unfold moveSquaresOK
  rw [(withSuffix_squares m0 p c1 c2).1, (withSuffix_squares m0 p c1 c2).2]
  exact coreOrCastle_ok hcc

theorem parseMoveFromRaw_ok {raw : List Char} {m : Move}
    (h : parseMoveFromRaw raw = some m) : moveSquaresOK m := by
  unfold parseMoveFromRaw at h
  split at h
  · split at h
    · exact absurd h (by simp)
    · split at h
      · exact absurd h (by simp)
      · exact map_withSuffix_ok h
  · split at h
    · exact map_withSuffix_ok h
    · exact map_withSuffix_ok h
    · exact map_withSuffix_ok h

theorem parseCoreRest_none_of_bad_dest {raw : List Char} (hlen : 2 ≤ raw.length)
    (hns : newSquare (raw.drop (raw.length - 2)) = none) : parseCoreRest raw = none := by
  unfold parseCoreRest
  rw [if_neg (by omega), hns]

theorem parseCoreMove_none_of_bad_dest : ∀ (raw : List Char), 2 ≤ raw.length →
    newSquare (raw.drop (raw.length - 2)) = none → parseCoreMove raw = none := by
  intro raw hlen hns
  rcases raw with _ | ⟨c0, _ | ⟨c1, _ | ⟨c2, _ | ⟨c3, t⟩⟩⟩⟩
  · simp at hlen
  · simp at hlen
  · exact parseCoreRest_none_of_bad_dest hlen hns
  · exact parseCoreRest_none_of_bad_dest hlen hns
  · rcases t with _ | ⟨c4, t⟩
    · rw [parseCoreMove]
      split
      · have hns' : newSquare [c2, c3] = none := by simpa using hns
        rw [hns']
      · exact parseCoreRest_none_of_bad_dest hlen hns
    · exact parseCoreRest_none_of_bad_dest hlen hns

/-- C7: every move a successful decomposition produces has both its squares
on the board (each coordinate within 0-7), and whenever the last two
characters of a (non-castling) core are not a file letter followed by a rank
digit — e.g. the out-of-range `e9` — the core decomposition fails; nothing
is clamped into range. -/
theorem C7_square_range :
    (∀ (raw : List Char) (m : Move), parseMoveFromRaw raw = some m → moveSquaresOK m) ∧
    (∀ (pre : List Char) (f r : Char), (IsFile f && IsRank r) = false →
      parseCoreMove (pre ++ [f, r]) = none) := by
  constructor
  · intro raw m h
    exact parseMoveFromRaw_ok h
  · intro pre f r h
    apply parseCoreMove_none_of_bad_dest
    · simp
    · have hdrop : (pre ++ [f, r]).drop ((pre ++ [f, r]).length - 2) = [f, r] := by
        have hl : (pre ++ [f, r]).length - 2 = pre.length := by simp
        rw [hl]
        exact List.drop_left pre [f, r]
      rw [hdrop]
      exact newSquare_none h

/-- Witness for C7: the successfully parsed `e4` has both squares on the
board, and the out-of-range destination `e9` (empty prefix) fails. -/
theorem C7_square_range_witness :
    moveSquaresOK (.mk ⟨0, 0⟩ ⟨4, 3⟩ .Pawn .Pawn false false false false false [] []) ∧
    parseCoreMove (([] : List Char) ++ ['e', '9']) = none :=
  ⟨C7_square_range.1 "e4".toList _ rfl,
   C7_square_range.2 [] 'e' '9' (by decide)⟩

theorem updateLast_eq : ∀ (moves : List Move) (h : moves ≠ []) (f : Move → Move),
    updateLast moves f = moves.dropLast ++ [f (moves.getLast h)] := by
  intro moves
  induction moves with
  | nil => intro h; exact absurd rfl h
  | cons m ms ih =>
    intro h f
    cases ms with
    | nil => rfl
    | cons m2 ms2 =>
      show m :: updateLast (m2 :: ms2) f = _
      rw [ih (by simp) f]
      rw [show (m :: m2 :: ms2).getLast h = (m2 :: ms2).getLast (by simp) from
        List.getLast_cons (by simp)]
      rfl

/-- The LPAREN case of `parseMovetextF` (inlined for structural recursion)
agrees with Go's standalone `parseRAV` followed by writing the updated move
back over the last element of the list, exactly as the Go code does through
its pointer into the slice. -/
theorem parseMovetextF_lparen (fuel : Nat) (st : ParserState) (moves : List Move)
    (htok : st.tok.type = .LPAREN) (hm : moves ≠ []) :
    parseMovetextF (fuel + 1) st moves =
      match parseRAVF fuel st (moves.getLast hm) with
      | none => none
      | some (.error e) => some (.error e)
      | some (.ok (mv, st2)) => parseMovetextF fuel st2 (moves.dropLast ++ [mv]) := by
  rw [parseMovetextF]
  simp only [htok]
  have hme : moves.isEmpty = false := by
    cases moves
    · exact absurd rfl hm
    · rfl
  simp only [hme, Bool.false_eq_true, if_false]
  unfold parseRAVF
  rcases hin : parseMovetextF fuel (pAdvance st) [] with _ | (_ | ⟨vm, stI⟩)
  · rfl
  · rfl
  · dsimp only
    split
    · rw [updateLast_eq moves hm]
    · rfl

/-- Counterexample to C6 as stated: in lax mode a stray `)` after a main
line move does NOT produce an error — `parseMovetext` returns on it and
`Parse`, finding no result in lax mode, returns the game successfully,
silently ignoring the rest; only strict mode rejects it. -/
theorem C6_paren_counterexample :
    ParseString "1. e4 )" [WithLaxParsing] =
      .ok ⟨[], [.mk ⟨0, 0⟩ ⟨4, 3⟩ .Pawn .Pawn false false false false false [] []], ""⟩ ∧
    ParseString "1. e4 )" [] = .error (.noResultToken ⟨.RPAREN, [')']⟩) :=
  ⟨rfl, rfl⟩

/-- C6 (as amended): an unclosed `(` is an error in both modes (after the
inner sequence stops at end of input, the required `)` is missing); a RAV
parse can only succeed when the inner movetext run stops on a `)`; a stray
`)` at the start of a game is an error in both modes; but a stray `)` after
at least one main-line move is an error only in strict mode — lax mode ends
the game successfully, discarding the remainder. -/
theorem C6_paren_amended :
    (∀ b : Bool, ParseRun ⟨b⟩ "1. e4 (1. d4".toList =
      .error (.expectedVariationClose ⟨.EOF, []⟩)) ∧
    (∀ (fuel : Nat) (st : ParserState) (moves : List Move) (r : List Move × ParserState),
      st.tok.type = .LPAREN → moves ≠ [] →
      parseMovetextF (fuel + 1) st moves = some (.ok r) →
      ∃ vm st2, parseMovetextF fuel (pAdvance st) [] = some (.ok (vm, st2)) ∧
        st2.tok.type = .RPAREN) ∧
    (∀ (fuel : Nat) (c : ParserConfig) (st : ParserState) (g : Game),
      st.tok.type = .RPAREN →
      ParseF (fuel + 1) c st g = some (.error (.unexpectedTokenAtStart st.tok))) ∧
    (ParseString "1. e4 )" [] = .error (.noResultToken ⟨.RPAREN, [')']⟩)) ∧
    (ParseString "1. e4 )" [WithLaxParsing] =
      .ok ⟨[], [.mk ⟨0, 0⟩ ⟨4, 3⟩ .Pawn .Pawn false false false false false [] []], ""⟩) := by
  refine ⟨fun b => by cases b <;> rfl, ?_, ?_, rfl, rfl⟩
  · intro fuel st moves r htok hm h
    rw [parseMovetextF] at h
    simp only [htok] at h
    have hme : moves.isEmpty = false := by
      cases moves
      · exact absurd rfl hm
      · rfl
    simp only [hme, Bool.false_eq_true, if_false] at h
    rcases hin : parseMovetextF fuel (pAdvance st) [] with _ | (_ | ⟨vm, st2⟩)
    · rw [hin] at h
      exact absurd h (by simp)
    · rw [hin] at h
      exact absurd h (by simp)
    · rw [hin] at h
      dsimp only at h
      split at h
      · rename_i hrp
        exact ⟨vm, st2, rfl, eq_of_beq hrp⟩
      · exact absurd h (by simp)
  · intro fuel c st g htok
    rw [ParseF]
    simp only [htok]

/-- Witness for C6 (amended): a RAV opened at `(` and immediately closed by
`)` lets the inner run stop on the `)`; a `)` as the very first token makes
`Parse` fail in strict mode at a concrete state. -/
theorem C6_paren_amended_witness :
    (∃ vm st2, parseMovetextF 1 (pAdvance ⟨⟨.LPAREN, ['(']⟩, [')']⟩) [] =
        some (.ok (vm, st2)) ∧ st2.tok.type = .RPAREN) ∧
    ParseF 1 ⟨true⟩ ⟨⟨.RPAREN, [')']⟩, []⟩ ⟨[], [], ""⟩ =
      some (.error (.unexpectedTokenAtStart ⟨.RPAREN, [')']⟩)) :=
  ⟨C6_paren_amended.2.1 1 ⟨⟨.LPAREN, ['(']⟩, [')']⟩ [emptyMove] _ rfl (by simp) rfl,
   C6_paren_amended.2.2.1 0 ⟨true⟩ ⟨⟨.RPAREN, [')']⟩, []⟩ ⟨[], [], ""⟩ rfl⟩

/-- Counterexample to C9 as stated: in `"1. e4 \x00 1-0"` the NUL occupies a
position where the next token would begin (after the whitespace following
`e4`), yet the scanner consumes it during whitespace skipping and goes on to
tokenize `1-0`, which becomes the game result — while truncating the input
at the NUL gives a strict-mode error instead.  The remainder after an
embedded NUL therefore IS tokenized, and the parse is not equivalent to the
parse of the truncated input. -/
theorem C9_nul_counterexample :
    ParseString "1. e4 \x00 1-0" [] =
      .ok ⟨[], [.mk ⟨0, 0⟩ ⟨4, 3⟩ .Pawn .Pawn false false false false false [] []], "1-0"⟩ ∧
    ParseString "1. e4 " [] = .error (.noResultToken ⟨.EOF, []⟩) :=
  ⟨rfl, rfl⟩

/-- C9 (as amended): a NUL that is the FIRST character a `Scan` call reads
yields the end-marker token with the NUL consumed, and a parse whose input
begins with a NUL returns the empty game in both modes, exactly as for empty
input; but a NUL reached while skipping whitespace is consumed like an
end-of-run terminator and scanning continues with the character after it, so
an embedded NUL is not, in general, equivalent to end of input. -/
theorem C9_nul_amended :
    (∀ rest : List Char, Scan (eofChar :: rest) = (⟨.EOF, []⟩, rest)) ∧
    (∀ (c : ParserConfig) (rest : List Char), ParseRun c (eofChar :: rest) = .ok ⟨[], [], ""⟩) ∧
    (∀ rest : List Char, Scan (' ' :: eofChar :: rest) = Scan rest) := by
  refine ⟨fun rest => rfl, ?_, ?_⟩
  · intro c rest
    obtain ⟨b⟩ := c
    cases b <;> rfl
  · intro rest
    have hp := ScanF_isSome (rest.length + 1) rest (by omega)
    obtain ⟨p, hp⟩ := Option.isSome_iff_exists.mp hp
    have h2 : ScanF (rest.length + 2) rest = some p := ScanF_mono _ _ _ _ hp (by omega)
    have hL : Scan (' ' :: eofChar :: rest) =
        (ScanF (rest.length + 2) rest).getD (⟨.EOF, []⟩, ' ' :: eofChar :: rest) := rfl
    rw [hL, h2, Scan_eq_of_ScanF hp]
    rfl

end Chessnote
